import Mathlib

/-!
A verification development for `FileSystemHelper`
(`src/FileSystemHelper.ts` of `node-file-system-helper`).

The TypeScript class is shallowly embedded: the filesystem, the OS watch
registries and the child-process stdout stream are explicit Lean values,
the class methods become pure functions over them, promise
resolution/rejection and synchronous return/throw both become `Except`
(the scheduling difference is erased; only outcomes are compared), and
JavaScript truthiness of optional fields is rendered with `Option`.
-/

namespace FSH

/-! ## Directory entries and trees (`fs.Dirent`, `readDir`/`readDirSync`) -/

/-- The kind of a directory entry as `fs.Dirent` exposes it: `isFile()`,
`isDirectory()`, or neither (symlinks, sockets, ...). -/
inductive EntryKind where
  | file
  | dir
  | other
deriving DecidableEq, Repr

/-- Model of `fs.Dirent`: a name plus its kind. -/
structure Dirent where
  name : String
  kind : EntryKind
deriving DecidableEq, Repr

/-- A directory tree: what the OS would let `fs.readdir` enumerate.  A `dir`
node carries the entries of that subdirectory; `other` is an entry that is
neither a file nor a directory. -/
inductive FsTree where
  | file (name : String)
  | dir (name : String) (children : List FsTree)
  | other (name : String)

def FsTree.entryName : FsTree → String
  | .file n => n
  | .dir n _ => n
  | .other n => n

/-- `dirent.isFile()`. -/
def FsTree.isFileEntry : FsTree → Bool
  | .file _ => true
  | _ => false

/-- `dirent.isDirectory()`. -/
def FsTree.isDirEntry : FsTree → Bool
  | .dir _ _ => true
  | _ => false

/-- The `fs.Dirent` record the OS listing reports for a tree node. -/
def FsTree.toDirent : FsTree → Dirent
  | .file n => ⟨n, .file⟩
  | .dir n _ => ⟨n, .dir⟩
  | .other n => ⟨n, .other⟩

/-- JavaScript `name.endsWith(suffix)`, on the underlying character lists. -/
def nameEndsWith (name sfx : String) : Bool :=
  sfx.data.isSuffixOf name.data

/-- `path.join(parent, child)` for the already-normalized names produced by
directory listings. -/
def joinName (parent child : String) : String :=
  parent ++ "/" ++ child

/-- The options record of `readDir`/`readDirSync`.  `none` is an absent
(hence falsy) field; note that `acceptExtensions: []` is *present* (an empty
array is truthy in JavaScript), which is why the field is an `Option`. -/
structure ReadDirOptions where
  acceptExtensions : Option (List String)
  recursiveLevels : Option Nat
  onlyFiles : Bool
  onlyDirs : Bool
deriving Repr

/-- The extension predicate of the code:
`!file.isFile() || acceptExtensions.some(ext => file.name.endsWith('.' + ext))`. -/
def extAccepts (exts : List String) (e : FsTree) : Bool :=
  !e.isFileEntry || exts.any fun ext => nameEndsWith e.entryName ("." ++ ext)

/-- `if (acceptExtensions) { acceptedFiles = acceptedFiles.filter(...) }`. -/
def applyAcceptExtensions (o : Option (List String)) (es : List FsTree) : List FsTree :=
  match o with
  | none => es
  | some exts => es.filter (extAccepts exts)

/-- The `onlyFiles` filter followed by the `onlyDirs` filter, in the order the
code applies them. -/
def applyKindFilters (onlyFiles onlyDirs : Bool) (ds : List Dirent) : List Dirent :=
  let ds1 := if onlyFiles then ds.filter (fun d => d.kind = EntryKind.file) else ds
  if onlyDirs then ds1.filter (fun d => d.kind = EntryKind.dir) else ds1

/-- The `for (const file of acceptedFiles)` loop of the recursive branch: a
directory entry is replaced by `g` of its children, each child renamed with
`join(file.name, childFile.name)`; every other entry is pushed unchanged. -/
def spliceChildren (g : List FsTree → List Dirent) : List FsTree → List Dirent
  | [] => []
  | FsTree.dir n children :: rest =>
      ((g children).map fun d => ⟨joinName n d.name, d.kind⟩) ++ spliceChildren g rest
  | e :: rest => e.toDirent :: spliceChildren g rest

/-- The recursive core of `readDir`: the behavior of
`readDir(path, { acceptExtensions, recursiveLevels: r })` — exactly the call
shape the code uses when it descends (no `onlyFiles`/`onlyDirs`).  Structural
on the remaining depth `r`, so the kernel can evaluate it. -/
def listAtDepth (exts : Option (List String)) : Nat → List FsTree → List Dirent
  | 0, es => (applyAcceptExtensions exts es).map FsTree.toDirent
  | r + 1, es => spliceChildren (listAtDepth exts r) (applyAcceptExtensions exts es)

/-- Model of `readDir(dirPath, options)` applied to the tree of entries the OS
reports under `dirPath`.  The code filters by extension, then (when
`recursiveLevels` is a truthy number) expands each directory entry through the
recursive call `readDir(join(dirPath, file.name), { acceptExtensions,
recursiveLevels: recursiveLevels - 1 })` — realized here by `listAtDepth`,
which `readDir_descend` below proves equal to that recursive call — and
finally applies `onlyFiles` and `onlyDirs`. -/
def readDir (es : List FsTree) (o : ReadDirOptions) : List Dirent :=
  let accepted := applyAcceptExtensions o.acceptExtensions es
  let expanded :=
    match o.recursiveLevels with
    | some (r + 1) => spliceChildren (listAtDepth o.acceptExtensions r) accepted
    | _ => accepted.map FsTree.toDirent
  applyKindFilters o.onlyFiles o.onlyDirs expanded

/-- The `for` loop of `readDirSync`'s recursive branch (textually the same
loop as the asynchronous one). -/
def spliceChildrenS (g : List FsTree → List Dirent) : List FsTree → List Dirent
  | [] => []
  | FsTree.dir n children :: rest =>
      ((g children).map fun d => ⟨joinName n d.name, d.kind⟩) ++ spliceChildrenS g rest
  | e :: rest => e.toDirent :: spliceChildrenS g rest

/-- The recursive core of `readDirSync`, mirroring `listAtDepth`. -/
def listAtDepthS (exts : Option (List String)) : Nat → List FsTree → List Dirent
  | 0, es => (applyAcceptExtensions exts es).map FsTree.toDirent
  | r + 1, es => spliceChildrenS (listAtDepthS exts r) (applyAcceptExtensions exts es)

/-- Model of `readDirSync(dirPath, options)`: the separate synchronous
implementation, whose body repeats the asynchronous logic verbatim. -/
def readDirSync (es : List FsTree) (o : ReadDirOptions) : List Dirent :=
  let accepted := applyAcceptExtensions o.acceptExtensions es
  let expanded :=
    match o.recursiveLevels with
    | some (r + 1) => spliceChildrenS (listAtDepthS o.acceptExtensions r) accepted
    | _ => accepted.map FsTree.toDirent
  applyKindFilters o.onlyFiles o.onlyDirs expanded

/-- The extension filter exactly as claim C1 words it: it "removes the
non-directory entries whose names do not end in `.e` for some e in E
(directories are exempt)" — i.e. only directories are exempt. -/
def claimExtAccepts (exts : List String) (e : FsTree) : Bool :=
  e.isDirEntry || exts.any fun ext => nameEndsWith e.entryName ("." ++ ext)

/-- The listing pipeline as the spec describes it, parameterized by the
extension predicate: filter the immediate entries, then at positive depth
replace each remaining directory entry by its recursive listing at depth
`n - 1` (same extension filter), each child's name prefixed with the parent's
name as a path join, non-directory entries passing through unchanged.
`onlyFiles`/`onlyDirs` are applied afterwards by the caller, over the
flattened list. -/
def specDirListing (accepts : List String → FsTree → Bool) (exts : List String) :
    Nat → List FsTree → List Dirent
  | 0, es => (es.filter (accepts exts)).map FsTree.toDirent
  | n + 1, es =>
      (es.filter (accepts exts)).flatMap fun e =>
        match e with
        | FsTree.dir nm ch =>
            (specDirListing accepts exts n ch).map fun d => ⟨joinName nm d.name, d.kind⟩
        | e => [e.toDirent]

/-- The directory of the spec's worked example: `a.txt`, `b.md` and `sub/`
containing `c.txt`. -/
def demoTree : List FsTree :=
  [FsTree.file "a.txt", FsTree.file "b.md", FsTree.dir "sub" [FsTree.file "c.txt"]]

/-! ## A flat filesystem state and the OS one-shot primitives

The one-shot wrappers (`mkdir`, `writeFile`, `readFile`, existence checks,
`rm`, `touch`, ...) act on resolved path strings, so for them the filesystem
is a flat map: regular files (path with content, a `Buffer` modelled as the
decoded string) and directories (paths).  Promise rejection and synchronous
throw are both `Except.error`. -/

/-- Errors the modelled OS calls can report. -/
inductive SysError where
  | enoent
  | eexist
  | eisdir
  | enotempty
  | parseFailure
deriving DecidableEq, Repr

/-- The filesystem state seen by the one-shot wrappers. -/
structure FileSystemState where
  files : List (String × String)
  dirs : List String
deriving DecidableEq, Repr

/-- Content of the regular file at `p`, if one exists. -/
def lookupFile (fs : FileSystemState) (p : String) : Option String :=
  fs.files.lookup p

/-- Whether a directory exists at `p`. -/
def hasDir (fs : FileSystemState) (p : String) : Bool :=
  fs.dirs.contains p

/-- Whether any filesystem object (file or directory) exists at `p`. -/
def pathPresent (fs : FileSystemState) (p : String) : Bool :=
  (lookupFile fs p).isSome || hasDir fs p

/-- Replace (or create) the regular file at `p` with content `data`. -/
def putFile (fs : FileSystemState) (p data : String) : FileSystemState :=
  { fs with files := (p, data) :: fs.files.filter fun kv => !(kv.1 == p) }

/-- OS `access(path, F_OK)`: succeeds exactly when something exists at `p`. -/
def fsAccess (fs : FileSystemState) (p : String) : Except SysError Unit :=
  if pathPresent fs p then .ok () else .error .enoent

/-- The slice of `fs.Stats` the code consults. -/
structure FileStats where
  statKind : EntryKind
deriving DecidableEq, Repr

/-- OS `stat`: the metadata of the object at `p`, or `ENOENT`. -/
def fsStat (fs : FileSystemState) (p : String) : Except SysError FileStats :=
  match lookupFile fs p with
  | some _ => .ok ⟨.file⟩
  | none => if hasDir fs p then .ok ⟨.dir⟩ else .error .enoent

/-- OS `mkdir(path, { recursive: true })`: succeeds (and is a no-op) on an
existing directory, fails with `EEXIST` when a non-directory occupies the
path, and otherwise records the directory (creation of missing ancestors is
kept abstract: only the target directory is tracked). -/
def fsMkdirRecursive (fs : FileSystemState) (p : String) :
    Except SysError FileSystemState :=
  match lookupFile fs p with
  | some _ => .error .eexist
  | none => if hasDir fs p then .ok fs else .ok { fs with dirs := p :: fs.dirs }

/-- The write mode carried by the `options` argument of `writeFile`:
the default `{}` truncates, `{ flag: 'a' }` appends. -/
inductive WriteMode where
  | truncate
  | append
deriving DecidableEq, Repr

/-- OS `writeFile`: `EISDIR` when a directory occupies the path; otherwise
the file is created/replaced (truncate) or extended (append, an absent file
counting as empty). -/
def fsWriteFile (fs : FileSystemState) (p data : String) (mode : WriteMode) :
    Except SysError FileSystemState :=
  if hasDir fs p then .error .eisdir
  else
    match mode with
    | .truncate => .ok (putFile fs p data)
    | .append => .ok (putFile fs p (((lookupFile fs p).getD "") ++ data))

/-- OS `readFile`: the content at `p`, `EISDIR` for a directory, `ENOENT`
otherwise. -/
def fsReadFile (fs : FileSystemState) (p : String) : Except SysError String :=
  match lookupFile fs p with
  | some data => .ok data
  | none => if hasDir fs p then .error .eisdir else .error .enoent

/-- Whether the directory at `p` has any entry strictly below it. -/
def dirNonempty (fs : FileSystemState) (p : String) : Bool :=
  (fs.files.any fun kv => (p ++ "/").data.isPrefixOf kv.1.data) ||
    (fs.dirs.any fun d => (p ++ "/").data.isPrefixOf d.data)

/-- OS `rmdir`: removes an existing empty directory; `ENOENT` when no
directory is at `p`, `ENOTEMPTY` when it is not empty. -/
def fsRmdir (fs : FileSystemState) (p : String) : Except SysError FileSystemState :=
  if hasDir fs p then
    if dirNonempty fs p then .error .enotempty
    else .ok { fs with dirs := fs.dirs.filter fun d => !(d == p) }
  else .error .enoent

/-- OS `unlink`: removes the regular file at `p`; `EISDIR` for a directory,
`ENOENT` when nothing is there. -/
def fsUnlink (fs : FileSystemState) (p : String) : Except SysError FileSystemState :=
  match lookupFile fs p with
  | some _ => .ok { fs with files := fs.files.filter fun kv => !(kv.1 == p) }
  | none => if hasDir fs p then .error .eisdir else .error .enoent

/-! ## The one-shot wrapper methods

Each method is modelled as a function of the filesystem state and the
already-resolved path (the constructor's optional `rootPath` joining is
orthogonal to every claim and elided).  The asynchronous variant's
resolve/reject and the synchronous variant's return/throw both land in
`Except`, erasing only scheduling. -/

/-- `mkdir`: wraps `fs.mkdir(path, { recursive: true })`, rejecting on `err`.
No existence pre-check. -/
def mkdir (fs : FileSystemState) (p : String) : Except SysError FileSystemState :=
  fsMkdirRecursive fs p

/-- `mkdirSync`: returns early when `fs.existsSync(path)` reports anything at
the path, and only otherwise calls `fs.mkdirSync(path, { recursive: true })`. -/
def mkdirSync (fs : FileSystemState) (p : String) : Except SysError FileSystemState :=
  if pathPresent fs p then .ok fs else fsMkdirRecursive fs p

/-- `writeFile`: wraps `fs.writeFile(path, data, options)`. -/
def writeFile (fs : FileSystemState) (p data : String) (mode : WriteMode) :
    Except SysError FileSystemState :=
  fsWriteFile fs p data mode

/-- `writeFileSync`: wraps `fs.writeFileSync(path, data, options)`. -/
def writeFileSync (fs : FileSystemState) (p data : String) (mode : WriteMode) :
    Except SysError FileSystemState :=
  fsWriteFile fs p data mode

/-- `readFile`: wraps `fs.readFile`, resolving with the `Buffer`. -/
def readFile (fs : FileSystemState) (p : String) : Except SysError String :=
  fsReadFile fs p

/-- `readFileSync`: wraps `fs.readFileSync`. -/
def readFileSync (fs : FileSystemState) (p : String) : Except SysError String :=
  fsReadFile fs p

/-- `readTXTFile`: `'' + (await this.readFile(filePath))`. -/
def readTXTFile (fs : FileSystemState) (p : String) : Except SysError String :=
  match readFile fs p with
  | .ok data => .ok ("" ++ data)
  | .error e => .error e

/-- `readTXTFileSync`: `'' + this.readFileSync(filePath)`. -/
def readTXTFileSync (fs : FileSystemState) (p : String) : Except SysError String :=
  match readFileSync fs p with
  | .ok data => .ok ("" ++ data)
  | .error e => .error e

/-- Truthiness of the `err` argument a Node callback receives for outcome `r`. -/
def errTruthy : Except SysError α → Bool
  | .ok _ => false
  | .error _ => true

/-- `fileExists`: `fs.access(path, F_OK, err => resolve(!err))`. -/
def fileExists (fs : FileSystemState) (p : String) : Bool :=
  !errTruthy (fsAccess fs p)

/-- `fileExistsSync`: `try { accessSync; return true } catch { return false }`. -/
def fileExistsSync (fs : FileSystemState) (p : String) : Bool :=
  match fsAccess fs p with
  | .ok _ => true
  | .error _ => false

/-- `fileStatsSync`: `try { return statSync(path) } catch { return null }`. -/
def fileStatsSync (fs : FileSystemState) (p : String) : Option FileStats :=
  match fsStat fs p with
  | .ok st => some st
  | .error _ => none

/-- `dirExists`: `fs.stat(path, err => resolve(!err))`. -/
def dirExists (fs : FileSystemState) (p : String) : Bool :=
  !errTruthy (fsStat fs p)

/-- `dirExistsSync`: `try { statSync; return true } catch { return false }`. -/
def dirExistsSync (fs : FileSystemState) (p : String) : Bool :=
  match fsStat fs p with
  | .ok _ => true
  | .error _ => false

/-- `rmdir`: `fs.rmdir(path, err => resolve(!err))` — it never rejects; it
resolves with a success flag, the state changing only on success. -/
def rmdir (fs : FileSystemState) (p : String) : Bool × FileSystemState :=
  match fsRmdir fs p with
  | .ok fs' => (true, fs')
  | .error _ => (false, fs)

/-- `rmdirSync`: `fs.rmdirSync(path)` — returns nothing, throws on failure. -/
def rmdirSync (fs : FileSystemState) (p : String) : Except SysError FileSystemState :=
  fsRmdir fs p

/-- `rm`: wraps `fs.unlink`, rejecting on `err`. -/
def rm (fs : FileSystemState) (p : String) : Except SysError FileSystemState :=
  fsUnlink fs p

/-- `rmSync`: wraps `fs.unlinkSync`. -/
def rmSync (fs : FileSystemState) (p : String) : Except SysError FileSystemState :=
  fsUnlink fs p

/-- `touch`: `this.writeFile(filePath, '', { flag: 'a' })` (default options). -/
def touch (fs : FileSystemState) (p : String) : Except SysError FileSystemState :=
  writeFile fs p "" .append

/-- `touchSync`: `this.writeFileSync(filePath, '', { flag: 'a' })`. -/
def touchSync (fs : FileSystemState) (p : String) : Except SysError FileSystemState :=
  writeFileSync fs p "" .append

/-! ## The interchange format (`JSON.stringify` / `JSON.parse`)

`writeJSONFile` serializes with `JSON.stringify(object)` (no spacing
argument, so no whitespace is emitted) and `readJSONFile` parses with
`JSON.parse`.  The host's codec is modelled over a `Json` value type in
which numbers are integers (the host's IEEE-double numerals are outside the
model) and the parser reads the canonical no-whitespace serializations the
serializer emits. -/

/-- A value of the interchange format: object, array, string, number,
boolean or null. -/
inductive Json where
  | jnull
  | jbool (b : Bool)
  | jnum (n : Int)
  | jstr (s : String)
  | jarr (items : List Json)
  | jobj (fields : List (String × Json))

/-- The decimal digit character for `d < 10`. -/
def digitCh (d : Nat) : Char := Char.ofNat (48 + d)

/-- The lowercase hexadecimal digit character for `d < 16`. -/
def hexCh (d : Nat) : Char :=
  if d < 10 then Char.ofNat (48 + d) else Char.ofNat (87 + d)

/-- Decimal digits of `n`, most significant first.  The extra fuel argument
makes the recursion structural (fuel `n + 1` always suffices). -/
def natCharsAux : Nat → Nat → List Char
  | 0, _ => []
  | fuel + 1, n =>
      if n < 10 then [digitCh n]
      else natCharsAux fuel (n / 10) ++ [digitCh (n % 10)]

/-- Decimal digit characters of `n`. -/
def natChars (n : Nat) : List Char := natCharsAux (n + 1) n

/-- The characters of an integer numeral: optional minus sign, then digits. -/
def intChars (i : Int) : List Char :=
  if i < 0 then '-' :: natChars i.natAbs else natChars i.natAbs

/-- `JSON.stringify`'s escaping of one string character: `"` and `\` get a
backslash, the control characters below `0x20` their short escapes (or
`\u00xx`), and every other character passes through. -/
def escapeCh (c : Char) : List Char :=
  if c = '"' then ['\\', '"']
  else if c = '\\' then ['\\', '\\']
  else if c.toNat < 32 then
    if c = '\x08' then ['\\', 'b']
    else if c = '\x09' then ['\\', 't']
    else if c = '\x0a' then ['\\', 'n']
    else if c = '\x0c' then ['\\', 'f']
    else if c = '\x0d' then ['\\', 'r']
    else ['\\', 'u', '0', '0', hexCh (c.toNat / 16), hexCh (c.toNat % 16)]
  else [c]

/-- A serialized string literal: quote, escaped characters, quote. -/
def quoteChars (s : String) : List Char :=
  '"' :: (s.data.flatMap escapeCh ++ ['"'])

mutual

/-- The characters `JSON.stringify` emits for a value (no whitespace). -/
def jsonChars : Json → List Char
  | .jnull => ['n', 'u', 'l', 'l']
  | .jbool true => ['t', 'r', 'u', 'e']
  | .jbool false => ['f', 'a', 'l', 's', 'e']
  | .jnum i => intChars i
  | .jstr s => quoteChars s
  | .jarr items => '[' :: (arrayBody items ++ [']'])
  | .jobj fields => '\x7b' :: (objectBody fields ++ ['\x7d'])

/-- Comma-separated serialized elements. -/
def arrayBody : List Json → List Char
  | [] => []
  | [v] => jsonChars v
  | v :: vs => jsonChars v ++ ',' :: arrayBody vs

/-- Comma-separated serialized `"key":value` members. -/
def objectBody : List (String × Json) → List Char
  | [] => []
  | [(k, v)] => quoteChars k ++ ':' :: jsonChars v
  | (k, v) :: fvs => quoteChars k ++ ':' :: (jsonChars v ++ ',' :: objectBody fvs)

end

/-- `JSON.stringify(object)` as called by `writeJSONFile`. -/
def jsonStringify (v : Json) : String := ⟨jsonChars v⟩

/-- Whether `c` is a decimal digit character. -/
def isDigitCh (c : Char) : Bool := 48 ≤ c.toNat && c.toNat ≤ 57

/-- The numeric value of a digit character. -/
def digitVal (c : Char) : Nat := c.toNat - 48

/-- Split a leading run of digit characters off the input. -/
def readDigits : List Char → List Char × List Char
  | [] => ([], [])
  | c :: cs =>
      if isDigitCh c then
        let p := readDigits cs
        (c :: p.1, p.2)
      else ([], c :: cs)

/-- The number denoted by a digit-character run. -/
def decodeDigits (ds : List Char) : Nat :=
  ds.foldl (fun a c => a * 10 + digitVal c) 0

/-- Read a nonempty digit run as a natural number. -/
def readNat (cs : List Char) : Option (Nat × List Char) :=
  match readDigits cs with
  | ([], _) => none
  | (ds, rest) => some (decodeDigits ds, rest)

/-- Read an integer numeral (optional minus sign, then digits). -/
def readNum : List Char → Option (Int × List Char)
  | [] => none
  | c :: cs =>
      if c = '-' then (readNat cs).map fun p => (-(p.1 : Int), p.2)
      else (readNat (c :: cs)).map fun p => ((p.1 : Int), p.2)

/-- The value of a hexadecimal digit character, if it is one. -/
def hexVal (c : Char) : Option Nat :=
  if 48 ≤ c.toNat && c.toNat ≤ 57 then some (c.toNat - 48)
  else if 97 ≤ c.toNat && c.toNat ≤ 102 then some (c.toNat - 87)
  else if 65 ≤ c.toNat && c.toNat ≤ 70 then some (c.toNat - 55)
  else none

/-- The character a short escape `\e` denotes, if `e` is a short escape. -/
def shortEscape : Char → Option Char
  | '"' => some '"'
  | '\\' => some '\\'
  | '/' => some '/'
  | 'b' => some '\x08'
  | 'f' => some '\x0c'
  | 'n' => some '\x0a'
  | 'r' => some '\x0d'
  | 't' => some '\x09'
  | _ => none

/-- Read the body of a string literal after the opening quote, undoing
escapes, until the closing quote. -/
def readQuoted (acc : List Char) : List Char → Option (String × List Char)
  | [] => none
  | c :: cs =>
      if c = '"' then some (⟨acc.reverse⟩, cs)
      else if c = '\\' then
        match cs with
        | [] => none
        | e :: cs' =>
            if e = 'u' then
              match cs' with
              | a :: b :: k :: d :: rest =>
                  match hexVal a, hexVal b, hexVal k, hexVal d with
                  | some va, some vb, some vc, some vd =>
                      readQuoted (Char.ofNat (((va * 16 + vb) * 16 + vc) * 16 + vd) :: acc) rest
                  | _, _, _, _ => none
              | _ => none
            else
              match shortEscape e with
              | some ch => readQuoted (ch :: acc) cs'
              | none => none
      else readQuoted (c :: acc) cs

/-- Drop an expected literal character sequence. -/
def dropLit : List Char → List Char → Option (List Char)
  | [], cs => some cs
  | l :: ls, c :: cs => if c = l then dropLit ls cs else none
  | _ :: _, [] => none

/-- Whether the input starts with character `d`. -/
def isCh : List Char → Char → Bool
  | c :: _, d => c == d
  | [], _ => false

mutual

/-- `JSON.parse` on the canonical (whitespace-free) serializations, reading
one value and returning the unread remainder.  Structural on the fuel
argument; `input.length + 1` fuel always suffices for serializer output. -/
def parseJ : Nat → List Char → Option (Json × List Char)
  | 0, _ => none
  | _ + 1, [] => none
  | fuel + 1, c :: cs =>
      if c = '-' || isDigitCh c then (readNum (c :: cs)).map fun p => (Json.jnum p.1, p.2)
      else if c = 'n' then (dropLit ['u', 'l', 'l'] cs).map fun r => (Json.jnull, r)
      else if c = 't' then (dropLit ['r', 'u', 'e'] cs).map fun r => (Json.jbool true, r)
      else if c = 'f' then (dropLit ['a', 'l', 's', 'e'] cs).map fun r => (Json.jbool false, r)
      else if c = '"' then (readQuoted [] cs).map fun p => (Json.jstr p.1, p.2)
      else if c = '[' then
        if isCh cs ']' then some (Json.jarr [], cs.tail)
        else (parseItems fuel cs).map fun p => (Json.jarr p.1, p.2)
      else if c = '\x7b' then
        if isCh cs '\x7d' then some (Json.jobj [], cs.tail)
        else (parseFields fuel cs).map fun p => (Json.jobj p.1, p.2)
      else none

/-- One-or-more comma-separated elements, ending at the closing bracket. -/
def parseItems : Nat → List Char → Option (List Json × List Char)
  | 0, _ => none
  | fuel + 1, cs =>
      match parseJ fuel cs with
      | none => none
      | some (v, rest) =>
          match rest with
          | ']' :: rest' => some ([v], rest')
          | ',' :: rest' =>
              match parseItems fuel rest' with
              | none => none
              | some (vs, rest'') => some (v :: vs, rest'')
          | _ => none

/-- One-or-more comma-separated `"key":value` members, ending at the closing
brace. -/
def parseFields : Nat → List Char → Option (List (String × Json) × List Char)
  | 0, _ => none
  | fuel + 1, cs =>
      match cs with
      | '"' :: cs' =>
          match readQuoted [] cs' with
          | none => none
          | some (k, rest) =>
              match rest with
              | ':' :: rest' =>
                  match parseJ fuel rest' with
                  | none => none
                  | some (v, rest'') =>
                      match rest'' with
                      | '\x7d' :: rest3 => some ([(k, v)], rest3)
                      | ',' :: rest3 =>
                          match parseFields fuel rest3 with
                          | none => none
                          | some (fvs, rest4) => some ((k, v) :: fvs, rest4)
                      | _ => none
              | _ => none
      | _ => none

end

/-- `JSON.parse(text)`: parse one value, requiring the whole input to be
consumed; `none` is the thrown `SyntaxError`. -/
def jsonParse (s : String) : Option Json :=
  match parseJ (s.data.length + 1) s.data with
  | some (v, []) => some v
  | _ => none

/-- Key lists of a JavaScript object value have no duplicates. -/
def nodupKeys : List String → Bool
  | [] => true
  | k :: ks => !(ks.contains k) && nodupKeys ks

mutual

/-- `v` is the image of a JavaScript value: every object level has distinct
keys (a JS object cannot hold two fields of the same name). -/
def wfKeys : Json → Bool
  | .jnull => true
  | .jbool _ => true
  | .jnum _ => true
  | .jstr _ => true
  | .jarr items => wfKeysItems items
  | .jobj fields => nodupKeys (fields.map fun kv => kv.1) && wfKeysFields fields

def wfKeysItems : List Json → Bool
  | [] => true
  | v :: vs => wfKeys v && wfKeysItems vs

def wfKeysFields : List (String × Json) → Bool
  | [] => true
  | (_, v) :: fvs => wfKeys v && wfKeysFields fvs

end

/-- `writeJSONFile`: `this.writeFile(filePath, JSON.stringify(object))`
(default write options, hence truncate). -/
def writeJSONFile (fs : FileSystemState) (p : String) (v : Json) :
    Except SysError FileSystemState :=
  writeFile fs p (jsonStringify v) .truncate

/-- `readJSONFile`: `JSON.parse((await this.readFile(filePath)).toString())`,
rejecting with the read error or the parse error. -/
def readJSONFile (fs : FileSystemState) (p : String) : Except SysError Json :=
  match readFile fs p with
  | .ok data =>
      match jsonParse data with
      | some v => .ok v
      | none => .error .parseFailure
  | .error e => .error e

/-- `readJSONFileSync`: the synchronous twin of `readJSONFile`, via
`readFileSync`. -/
def readJSONFileSync (fs : FileSystemState) (p : String) : Except SysError Json :=
  match readFileSync fs p with
  | .ok data =>
      match jsonParse data with
      | some v => .ok v
      | none => .error .parseFailure
  | .error e => .error e

/-! ## Subprocess execution (`execute`)

`execute(command, args)` spawns the child, pushes the nonempty
newline-split lines of each `data` chunk of `child.stdout` onto an
accumulator, resolves with the accumulator on the stream's `end` event, and
rejects only from the `catch` around the synchronous `spawn` call.  The
stream is modelled as the list of `data` chunks delivered before `end` (a
`Buffer`'s decoded text as its character list); the child's exit code is
carried alongside to state that it plays no role, and the spawn lifecycle
distinguishes a synchronous `spawn` throw from the asynchronous `'error'`
event through which the host reports a process that could not be
started. -/

/-- Prepend a character onto the first of the split pieces. -/
def consHead (c : Char) : List (List Char) → List (List Char)
  | [] => [[c]]
  | l :: ls => (c :: l) :: ls

/-- JavaScript `buffer.toString().split('\n')` on the chunk's characters. -/
def splitNl : List Char → List (List Char)
  | [] => [[]]
  | c :: cs => if c = '\n' then [] :: splitNl cs else consHead c (splitNl cs)

/-- The lines one `data` callback pushes: the chunk split on newline, empty
lines discarded. -/
def chunkLines (buf : List Char) : List (List Char) :=
  (splitNl buf).filter fun l => !l.isEmpty

/-- The accumulated `stdout` array at the `end` event: each chunk's nonempty
lines, in delivery order. -/
def executeStdoutLines (chunks : List (List Char)) : List (List Char) :=
  chunks.flatMap chunkLines

/-- What claim C4 (and §4.4 of the spec) describes: the nonempty
newline-split lines of the entire stream contents. -/
def wholeStreamLines (chunks : List (List Char)) : List (List Char) :=
  (splitNl chunks.flatten).filter fun l => !l.isEmpty

/-- How the host's `spawn` call and the child's lifecycle can go.
`spawn` throws synchronously only for invalid-argument failures
(`argThrow`); when the process *cannot be started* (command not found,
permission denied — `ENOENT`/`EACCES`), `spawn` still returns a child
handle and the OS error `e` arrives later as an asynchronous `'error'`
event on the child, stdout delivering no data and either ending or being
torn down without ending (`stdoutEnds`).  Otherwise the process runs:
stdout delivers `chunks` and ends, the process exiting with `exitCode`. -/
inductive SpawnBehavior where
  | argThrow (e : SysError)
  | startFailure (e : SysError) (stdoutEnds : Bool)
  | runs (chunks : List (List Char)) (exitCode : Int)

/-- Where the promise `execute` returns stands once the run is over. -/
inductive ExecOutcome where
  | resolved (lines : List (List Char))
  | rejected (e : SysError)
  | pending
deriving DecidableEq, Repr

/-- `execute`: the code installs handlers only for stdout's `data` and
`end` events, and its sole `reject` sits in the `catch` around the
synchronous `spawn` call.  A synchronous throw is therefore rejected; but a
cannot-start failure, delivered on the child's unhandled `'error'` event,
reaches no reject — the promise resolves with the (empty) accumulated lines
if stdout still ends, and stays pending forever otherwise.  A started
process resolves on `end` with each chunk's nonempty lines; no
`exit`/`close` handler is installed, so the exit code cannot influence the
outcome. -/
def execute : SpawnBehavior → ExecOutcome
  | .argThrow e => .rejected e
  | .startFailure _ stdoutEnds => if stdoutEnds then .resolved [] else .pending
  | .runs chunks _ => .resolved (executeStdoutLines chunks)

/-! ## Watching

`watchFile` registers a stat-poll listener via `fs.watchFile`; its promise
resolves when that listener first fires.  Its `abort` returns a promise
whose executor calls `fs.unwatchFile(path, cb)` where `cb` resolves the
abort promise — but `fs.unwatchFile`'s second argument is the *listener to
remove*, which is only ever *invoked* when it is a registered poll listener
receiving a change notification.  The OS-side registry and its event
delivery are modelled explicitly; listeners are identified by tokens. -/

/-- The `fs.watchFile` poll registry: the registered `(path, listener)`
pairs. -/
structure WatchFileRegistry where
  entries : List (String × Nat)
deriving DecidableEq, Repr

/-- `fs.watchFile(path, options, listener)`: registers the listener. -/
def fsWatchFile (reg : WatchFileRegistry) (p : String) (l : Nat) : WatchFileRegistry :=
  ⟨(p, l) :: reg.entries⟩

/-- `fs.unwatchFile(path, listener)`: removes that listener's registration
(nothing else happens; in particular no listener is invoked, and an
unregistered `listener` argument removes nothing). -/
def fsUnwatchFile (reg : WatchFileRegistry) (p : String) (l : Nat) : WatchFileRegistry :=
  ⟨reg.entries.filter fun w => !(w.1 == p && w.2 == l)⟩

/-- The listeners the poll invokes when it detects a change of the file at
`p`: exactly the listeners registered for `p`. -/
def pollInvokes (reg : WatchFileRegistry) (p : String) : List Nat :=
  (reg.entries.filter fun w => w.1 == p).map fun w => w.2

/-- All listener invocations over a run of change events (the registry does
not change on an event). -/
def invokedDuring (reg : WatchFileRegistry) (events : List String) : List Nat :=
  events.flatMap (pollInvokes reg)

/-- The registry after `watchFile(p)`: the method's stat listener
(resolving the main promise) is registered as token `statListener`. -/
def watchFileRegister (reg : WatchFileRegistry) (p : String) (statListener : Nat) :
    WatchFileRegistry :=
  fsWatchFile reg p statListener

/-- The registry after the returned promise's `abort()`: the abort promise's
resolve callback (a fresh function, token `abortResolver`) is passed to
`fs.unwatchFile` as the listener-to-remove argument. -/
def watchFileAbort (reg : WatchFileRegistry) (p : String) (abortResolver : Nat) :
    WatchFileRegistry :=
  fsUnwatchFile reg p abortResolver

/-- A directory watch (`watchDir`): whether the `fs.watch` handle is still
open, and the `(event, filename)` the single-shot promise was resolved with,
if any. -/
structure DirWatch where
  handleOpen : Bool
  settled : Option (String × String)
deriving DecidableEq, Repr

/-- `watchDir(path)`: `fs.watch` handle open, promise pending. -/
def watchDirStart : DirWatch := ⟨true, none⟩

/-- The watch's `abort()`: `watcher.close()` (the handle is always assigned,
the promise executor having run synchronously); nothing resolves or rejects
the promise. -/
def dirWatchAbort (w : DirWatch) : DirWatch := { w with handleOpen := false }

/-- A filesystem change event: a closed handle delivers nothing; an open one
invokes the callback, which resolves the promise (first resolution wins). -/
def dirWatchEvent (w : DirWatch) (ev fn : String) : DirWatch :=
  if w.handleOpen then
    match w.settled with
    | none => { w with settled := some (ev, fn) }
    | some _ => w
  else w

/-- A run of subsequent change events. -/
def dirWatchRun (w : DirWatch) (events : List (String × String)) : DirWatch :=
  events.foldl (fun w e => dirWatchEvent w e.1 e.2) w

/-! ## Auxiliary measures and sample values used by the theorems -/

/-- Whether the input begins with a digit character (what could extend a
numeral). -/
def startsDigit : List Char → Bool
  | [] => false
  | c :: _ => isDigitCh c

mutual

/-- Fuel sufficient for `parseJ` to read a serialized `v`. -/
def needJ : Json → Nat
  | .jarr items => 1 + needItems items
  | .jobj fields => 1 + needFields fields
  | _ => 1

/-- Fuel sufficient for `parseItems` on serialized elements. -/
def needItems : List Json → Nat
  | [] => 0
  | v :: vs => 1 + needJ v + needItems vs

/-- Fuel sufficient for `parseFields` on serialized members. -/
def needFields : List (String × Json) → Nat
  | [] => 0
  | (_, v) :: fvs => 1 + needJ v + needFields fvs

end

/-- A stdout chunk that ends on a line boundary: empty, or
newline-terminated. -/
def nlTerminated (b : List Char) : Bool :=
  b.isEmpty || (b.getLast? == some '\n')

/-- A sample value exercising every constructor of the interchange format. -/
def demoJson : Json :=
  Json.jobj
    [("a", Json.jarr [Json.jnum (-5), Json.jstr "hi\n", Json.jbool false, Json.jnull]),
     ("n", Json.jnum 42)]

/-! # Theorems -/

/-! ## Directory listing -/

/-- The synchronous splice loop is the same function as the asynchronous
one. -/
theorem spliceChildrenS_eq (g : List FsTree → List Dirent) :
    ∀ es, spliceChildrenS g es = spliceChildren g es := by
  intro es
  induction es with
  | nil => rfl
  | cons e rest ih => cases e <;> simp [spliceChildren, spliceChildrenS, ih]

/-- The splice loop only looks at the listing function's values. -/
theorem spliceChildren_congr {g h : List FsTree → List Dirent}
    (hgh : ∀ ch, g ch = h ch) : ∀ es, spliceChildren g es = spliceChildren h es := by
  intro es
  induction es with
  | nil => rfl
  | cons e rest ih => cases e <;> simp [spliceChildren, ih, hgh]

/-- The recursive cores of the two listing implementations agree. -/
theorem listAtDepthS_eq (exts : Option (List String)) :
    ∀ r es, listAtDepthS exts r es = listAtDepth exts r es := by
  intro r
  induction r with
  | zero => intro es; rfl
  | succ r ih =>
      intro es
      rw [listAtDepthS, listAtDepth, spliceChildrenS_eq]
      exact spliceChildren_congr ih _

/-- `readDir` on the option record of a recursive descent is its recursive
core: the call `readDir(childPath, { acceptExtensions, recursiveLevels: r })`
behaves as `listAtDepth acceptExtensions r` on the child's entries. -/
theorem readDir_descend (exts : Option (List String)) (r : Nat) (es : List FsTree) :
    readDir es ⟨exts, some r, false, false⟩ = listAtDepth exts r es := by
  cases r <;> simp [readDir, listAtDepth, applyKindFilters]

/-- The splice loop, written as the flat map the spec describes. -/
theorem spliceChildren_eq_flatMap (g : List FsTree → List Dirent) :
    ∀ es, spliceChildren g es =
      es.flatMap fun e =>
        match e with
        | FsTree.dir nm ch => (g ch).map fun d => ⟨joinName nm d.name, d.kind⟩
        | e => [e.toDirent] := by
  intro es
  induction es with
  | nil => rfl
  | cons e rest ih => cases e <;> simp [spliceChildren, ih]

/-- The recursive core equals the spec's pipeline built on the code's
extension predicate. -/
theorem listAtDepth_eq_spec (E : List String) :
    ∀ n es, listAtDepth (some E) n es = specDirListing extAccepts E n es := by
  intro n
  induction n with
  | zero => intro es; rfl
  | succ n ih =>
      intro es
      rw [listAtDepth, spliceChildren_eq_flatMap, specDirListing]
      simp only [ih]
      rfl

/-- The two listing implementations, kept in textual sync in the source,
agree on every input. -/
theorem readDirSync_eq_readDir : ∀ es o, readDirSync es o = readDir es o := by
  intro es o
  obtain ⟨ae, rl, oF', oD'⟩ := o
  rw [readDir, readDirSync]
  match rl with
  | none => rfl
  | some 0 => rfl
  | some (r + 1) =>
      dsimp only
      rw [spliceChildrenS_eq]
      exact congrArg (applyKindFilters oF' oD') (spliceChildren_congr (listAtDepthS_eq ae r) _)

/-- C1, as stated, is false on the code: an entry that is neither a file nor
a directory (here `other "x"`) passes the code's extension filter (which
exempts every non-file), while the claim's filter exempts only directories
and so removes it.  At extension set `["txt"]` and depth 1 the code returns
the entry; the claim's pipeline returns nothing. -/
theorem c1_counterexample :
    readDir [FsTree.other "x"] ⟨some ["txt"], some 1, false, false⟩ ≠
      applyKindFilters false false
        (specDirListing claimExtAccepts ["txt"] 1 [FsTree.other "x"]) := by
  decide

/-- C1 (amended): for every tree, extension set `E` and depth `n > 0`,
`readDir` (and `readDirSync`) removes the *file* entries whose names do not
end in `.e` for some `e ∈ E` (non-file entries — directories and others —
are exempt), replaces each remaining directory entry by the entries of the
recursive listing of that directory at depth `n - 1` with the same extension
filter, each child's name prefixed with the parent directory's name as a
path join, the parent directory entry itself absent, non-directory entries
passing through unchanged, and applies `onlyFiles`/`onlyDirs` last over the
flattened list; the worked example (`a.txt`, `b.md`, `sub/c.txt`, extensions
`["txt"]`, one level) yields exactly `a.txt` and `sub/c.txt`. -/
theorem c1_readdir_pipeline :
    (∀ (es : List FsTree) (E : List String) (n : Nat) (oF oD : Bool), 0 < n →
      readDir es ⟨some E, some n, oF, oD⟩ =
        applyKindFilters oF oD (specDirListing extAccepts E n es)) ∧
    (∀ (es : List FsTree) (E : List String) (n : Nat) (oF oD : Bool), 0 < n →
      readDirSync es ⟨some E, some n, oF, oD⟩ =
        applyKindFilters oF oD (specDirListing extAccepts E n es)) ∧
    readDir demoTree ⟨some ["txt"], some 1, false, false⟩ =
      [⟨"a.txt", EntryKind.file⟩, ⟨"sub/c.txt", EntryKind.file⟩] := by
  have main : ∀ (es : List FsTree) (E : List String) (n : Nat) (oF oD : Bool), 0 < n →
      readDir es ⟨some E, some n, oF, oD⟩ =
        applyKindFilters oF oD (specDirListing extAccepts E n es) := by
    intro es E n oF oD hn
    obtain ⟨r, rfl⟩ : ∃ r, n = r + 1 := ⟨n - 1, by omega⟩
    rw [readDir]
    simp only
    rw [spliceChildren_eq_flatMap]
    simp only [listAtDepth_eq_spec]
    rfl
  refine ⟨main, ?_, by decide⟩
  intro es E n oF oD hn
  rw [← main es E n oF oD hn]
  exact readDirSync_eq_readDir es _

/-- Witness for `c1_readdir_pipeline` at the spec's worked example. -/
theorem c1_readdir_pipeline_witness :
    (0 : Nat) < 1 ∧
    readDir demoTree ⟨some ["txt"], some 1, false, false⟩ =
      applyKindFilters false false (specDirListing extAccepts ["txt"] 1 demoTree) :=
  ⟨by decide, c1_readdir_pipeline.1 demoTree ["txt"] 1 false false (by decide)⟩

/-! ## Sync/async agreement (and its two exceptions) -/

/-- C3, as stated, is false on the code at two of the listed operations.  On
a state where `"a"` is a regular file, `mkdir "a"` rejects with `EEXIST`
while `mkdirSync "a"` (whose existence pre-check short-circuits) returns
silently; and on the empty state, `rmdir "d"` resolves with the value
`false` while `rmdirSync "d"` throws `ENOENT`. -/
theorem c3_counterexample :
    mkdir ⟨[("a", "")], []⟩ "a" = Except.error SysError.eexist ∧
    mkdirSync ⟨[("a", "")], []⟩ "a" = Except.ok ⟨[("a", "")], []⟩ ∧
    mkdir ⟨[("a", "")], []⟩ "a" ≠ mkdirSync ⟨[("a", "")], []⟩ "a" ∧
    rmdir ⟨[], []⟩ "d" = (false, ⟨[], []⟩) ∧
    rmdirSync ⟨[], []⟩ "d" = Except.error SysError.enoent := by
  exact ⟨rfl, rfl, fun h => Except.noConfusion h, rfl, rfl⟩

/-- C3 (amended): for `writeFile`, `readFile`, `readTXTFile`, `readJSONFile`,
`fileExists`, `dirExists`, `rm`, `touch` and `readDir`, the synchronous
variant returns value `v` (respectively raises `e`) exactly when the
asynchronous variant resolves with `v` (respectively rejects with `e`) on
the same state and arguments.  The two exceptions are `mkdir` (the sync
variant pre-checks existence and returns silently where the async variant
rejects) and `rmdir` (the async variant resolves with a success boolean and
never rejects, while the sync variant raises on failure). -/
theorem c3_sync_async_agree :
    (∀ fs p data mode, writeFile fs p data mode = writeFileSync fs p data mode) ∧
    (∀ fs p, readFile fs p = readFileSync fs p) ∧
    (∀ fs p, readTXTFile fs p = readTXTFileSync fs p) ∧
    (∀ fs p, readJSONFile fs p = readJSONFileSync fs p) ∧
    (∀ fs p, fileExists fs p = fileExistsSync fs p) ∧
    (∀ fs p, dirExists fs p = dirExistsSync fs p) ∧
    (∀ fs p, rm fs p = rmSync fs p) ∧
    (∀ fs p, touch fs p = touchSync fs p) ∧
    (∀ es o, readDir es o = readDirSync es o) := by
  refine ⟨fun _ _ _ _ => rfl, fun _ _ => rfl, fun _ _ => rfl, fun _ _ => rfl,
    ?_, ?_, fun _ _ => rfl, fun _ _ => rfl, fun es o => (readDirSync_eq_readDir es o).symm⟩
  · intro fs p
    cases h : fsAccess fs p <;> simp [fileExists, fileExistsSync, errTruthy, h]
  · intro fs p
    cases h : fsStat fs p <;> simp [dirExists, dirExistsSync, errTruthy, h]

/-! ## Subprocess execution -/

/-- C5 is the intended behavior, but the code cannot deliver its first
half: its only `reject` sits in the `try`/`catch` around the synchronous
`spawn` call, while the host reports a process that cannot be started
(`ENOENT`/`EACCES`) through an asynchronous `'error'` event on the child,
for which the code installs no handler.  On such a failure the promise is
never rejected with the spawn error (or anything else): it resolves with
the empty line list when stdout still ends, and stays pending forever
otherwise.  Only a synchronous invalid-argument throw is rejected.  The
second half of the claim holds: no `exit`/`close` handler exists, so a
started process resolves with the accumulated stdout lines whatever its
exit code. -/
theorem c5_execute_error_event_bug :
    (∀ (e : SysError) (ends : Bool),
      execute (SpawnBehavior.startFailure e ends) =
        if ends then ExecOutcome.resolved [] else ExecOutcome.pending) ∧
    (∀ (e e' : SysError) (ends : Bool),
      execute (SpawnBehavior.startFailure e ends) ≠ ExecOutcome.rejected e') ∧
    (∀ (e : SysError), execute (SpawnBehavior.argThrow e) = ExecOutcome.rejected e) ∧
    (∀ (chunks : List (List Char)) (code : Int),
      execute (SpawnBehavior.runs chunks code) =
        ExecOutcome.resolved (executeStdoutLines chunks)) ∧
    (∀ (chunks : List (List Char)) (code code' : Int),
      execute (SpawnBehavior.runs chunks code) = execute (SpawnBehavior.runs chunks code')) := by
  refine ⟨fun e ends => rfl, ?_, fun e => rfl, fun chunks code => rfl,
    fun chunks code code' => rfl⟩
  intro e e' ends h
  cases ends <;> simp [execute] at h

/-- Witness for `c5_execute_error_event_bug` at the concrete failing input:
a command that does not exist (`ENOENT` via the `'error'` event), stdout
ending empty — the promise resolves with no lines instead of rejecting. -/
theorem c5_execute_error_event_bug_witness :
    execute (SpawnBehavior.startFailure SysError.enoent true) ≠
      ExecOutcome.rejected SysError.enoent ∧
    execute (SpawnBehavior.startFailure SysError.enoent true) = ExecOutcome.resolved [] :=
  ⟨c5_execute_error_event_bug.2.1 SysError.enoent SysError.enoent true,
    by simpa using c5_execute_error_event_bug.1 SysError.enoent true⟩

/-! ## Existence checks: the soft-false policy -/

/-- C7: `fileExists`/`fileExistsSync` and `dirExists`/`dirExistsSync` never
raise (they are `Bool`-valued by construction) and return `false` on any
error of the underlying OS call, `fileStatsSync` returns `null` on any OS
error, and on a path where nothing exists all of them report
`false`/`null`. -/
theorem c7_soft_false :
    (∀ fs p e, fsAccess fs p = Except.error e →
      fileExists fs p = false ∧ fileExistsSync fs p = false) ∧
    (∀ fs p e, fsStat fs p = Except.error e →
      dirExists fs p = false ∧ dirExistsSync fs p = false ∧ fileStatsSync fs p = none) ∧
    (∀ fs p, pathPresent fs p = false →
      fileExists fs p = false ∧ fileExistsSync fs p = false ∧
      dirExists fs p = false ∧ dirExistsSync fs p = false ∧ fileStatsSync fs p = none) := by
  refine ⟨?_, ?_, ?_⟩
  · intro fs p e h
    simp [fileExists, fileExistsSync, errTruthy, h]
  · intro fs p e h
    simp [dirExists, dirExistsSync, fileStatsSync, errTruthy, h]
  · intro fs p h
    have hl : lookupFile fs p = none := by
      rcases hx : lookupFile fs p with _ | c
      · rfl
      · rw [pathPresent, hx] at h; simp at h
    have hd : hasDir fs p = false := by
      rw [pathPresent, hl] at h; simpa using h
    have ha : fsAccess fs p = Except.error SysError.enoent := by
      rw [fsAccess, if_neg]; rw [h]; simp
    have hs : fsStat fs p = Except.error SysError.enoent := by
      rw [fsStat, hl]; simp [hd]
    simp [fileExists, fileExistsSync, dirExists, dirExistsSync, fileStatsSync,
      errTruthy, ha, hs]

/-- Witness for `c7_soft_false` on the empty filesystem and a missing path. -/
theorem c7_soft_false_witness :
    pathPresent ⟨[], []⟩ "missing" = false ∧
    fileExists ⟨[], []⟩ "missing" = false ∧ fileExistsSync ⟨[], []⟩ "missing" = false ∧
    dirExists ⟨[], []⟩ "missing" = false ∧ dirExistsSync ⟨[], []⟩ "missing" = false ∧
    fileStatsSync ⟨[], []⟩ "missing" = none := by
  refine ⟨rfl, ?_⟩
  have h := c7_soft_false.2.2 ⟨[], []⟩ "missing" rfl
  exact ⟨h.1, h.2.1, h.2.2.1, h.2.2.2.1, h.2.2.2.2⟩

/-! ## Watching -/

/-- C8: aborting a directory watch closes the handle (the abort itself is a
total operation that signals no error), and after an abort that precedes any
change event no run of later events ever settles the promise. -/
theorem c8_watchdir_abort_pending :
    (dirWatchAbort watchDirStart).handleOpen = false ∧
    ∀ (events : List (String × String)),
      (dirWatchRun (dirWatchAbort watchDirStart) events).settled = none := by
  refine ⟨rfl, ?_⟩
  have closedStep : ∀ (w : DirWatch), w.handleOpen = false →
      ∀ ev fn, dirWatchEvent w ev fn = w := by
    intro w hw ev fn
    simp [dirWatchEvent, hw]
  have run : ∀ (events : List (String × String)) (w : DirWatch), w.handleOpen = false →
      dirWatchRun w events = w := by
    intro events
    induction events with
    | nil => intro w _; rfl
    | cons e rest ih =>
        intro w hw
        rw [dirWatchRun]
        simp only [List.foldl_cons]
        rw [closedStep w hw e.1 e.2]
        exact ih w hw
  intro events
  rw [run events _ rfl]
  rfl

/-- C6 is the intended behavior, but the code misuses the OS interface: the
abort promise's executor passes its `resolve` callback to `fs.unwatchFile`
as the listener-to-remove argument.  That function was never registered as a
poll listener, so the call unregisters nothing — the original stat listener
stays registered — and since `fs.unwatchFile` never invokes the listener it
is given, the abort promise's resolver is never called during any later run
of change events: the abort's future never completes. -/
theorem c6_watchfile_abort_bug :
    ∀ (events : List String),
      watchFileAbort (watchFileRegister ⟨[]⟩ "f" 0) "f" 1 = watchFileRegister ⟨[]⟩ "f" 0 ∧
      1 ∉ invokedDuring (watchFileAbort (watchFileRegister ⟨[]⟩ "f" 0) "f" 1) events := by
  intro events
  refine ⟨rfl, ?_⟩
  simp only [invokedDuring, List.mem_flatMap]
  rintro ⟨e, -, hmem⟩
  revert hmem
  simp [watchFileAbort, watchFileRegister, fsWatchFile, fsUnwatchFile, pollInvokes]

/-! ## `touch` -/

/-- C9: on a path that is not a directory, `touch` and `touchSync` succeed;
on a nonexistent path they create an empty file, and on an existing file
they leave its content unchanged (append of the empty string). -/
theorem c9_touch :
    ∀ (fs : FileSystemState) (p : String), hasDir fs p = false →
      (lookupFile fs p = none →
        touch fs p = Except.ok (putFile fs p "") ∧
        touchSync fs p = Except.ok (putFile fs p "") ∧
        lookupFile (putFile fs p "") p = some "") ∧
      (∀ c, lookupFile fs p = some c →
        touch fs p = Except.ok (putFile fs p c) ∧
        touchSync fs p = Except.ok (putFile fs p c) ∧
        lookupFile (putFile fs p c) p = some c) := by
  intro fs p hd
  have hput : ∀ x, lookupFile (putFile fs p x) p = some x := by
    intro x
    simp [lookupFile, putFile, List.lookup]
  constructor
  · intro hnone
    refine ⟨?_, ?_, hput ""⟩ <;>
      simp [touch, touchSync, writeFile, writeFileSync, fsWriteFile, hd, hnone]
  · intro c hc
    have : ((lookupFile fs p).getD "" ++ "") = c := by rw [hc]; simp
    refine ⟨?_, ?_, hput c⟩ <;>
      simp [touch, touchSync, writeFile, writeFileSync, fsWriteFile, hd, this]

/-- Witness for `c9_touch`: touching the existing file `"f"` (content
`"hi"`) preserves its content; touching the missing `"g"` creates it
empty. -/
theorem c9_touch_witness :
    hasDir ⟨[("f", "hi")], []⟩ "f" = false ∧
    lookupFile ⟨[("f", "hi")], []⟩ "f" = some "hi" ∧
    touch ⟨[("f", "hi")], []⟩ "f" = Except.ok (putFile ⟨[("f", "hi")], []⟩ "f" "hi") ∧
    lookupFile (putFile ⟨[("f", "hi")], []⟩ "f" "hi") "f" = some "hi" ∧
    hasDir ⟨[], []⟩ "g" = false ∧
    lookupFile ⟨[], []⟩ "g" = none ∧
    touch ⟨[], []⟩ "g" = Except.ok (putFile ⟨[], []⟩ "g" "") ∧
    lookupFile (putFile ⟨[], []⟩ "g" "") "g" = some "" := by
  have h1 := (c9_touch ⟨[("f", "hi")], []⟩ "f" rfl).2 "hi" rfl
  have h2 := (c9_touch ⟨[], []⟩ "g" rfl).1 rfl
  exact ⟨rfl, rfl, h1.1, h1.2.2, rfl, rfl, h2.1, h2.2.2⟩

/-! ## `mkdir` vs `mkdirSync` -/

/-- C10: `mkdirSync` returns silently and leaves the state unchanged
whenever *anything* exists at the path (its short-circuit tests mere
existence), while the asynchronous `mkdir` has no pre-check and rejects with
the OS's `EEXIST` when the path is occupied by a non-directory (a regular
file in this model). -/
theorem c10_mkdir_precheck :
    (∀ fs p, pathPresent fs p = true → mkdirSync fs p = Except.ok fs) ∧
    (∀ fs p c, lookupFile fs p = some c → mkdir fs p = Except.error SysError.eexist) := by
  constructor
  · intro fs p h
    simp [mkdirSync, h]
  · intro fs p c h
    simp [mkdir, fsMkdirRecursive, h]

/-! ## The stdout line splitter -/

/-- `splitNl` always yields at least one (possibly empty) line. -/
theorem splitNl_ne_nil : ∀ cs, splitNl cs ≠ [] := by
  intro cs
  cases cs with
  | nil => simp [splitNl]
  | cons c cs =>
      rw [splitNl]
      split
      · simp
      · cases h : splitNl cs <;> simp [consHead]

/-- `consHead` acts on the first piece only. -/
theorem consHead_append (c : Char) (S T : List (List Char)) (h : S ≠ []) :
    consHead c (S ++ T) = consHead c S ++ T := by
  cases S with
  | nil => exact absurd rfl h
  | cons l ls => rfl

/-- Splitting distributes over a newline: the lines of `xs ++ '\n' :: ys`
are the lines of `xs` followed by the lines of `ys`. -/
theorem splitNl_append_nl : ∀ xs ys, splitNl (xs ++ '\n' :: ys) = splitNl xs ++ splitNl ys := by
  intro xs
  induction xs with
  | nil => intro ys; simp [splitNl]
  | cons c xs ih =>
      intro ys
      rw [List.cons_append, splitNl, splitNl, ih ys]
      split
      · simp
      · rw [consHead_append c _ _ (splitNl_ne_nil xs)]

/-- C4, as stated, is false on the code: the lines are computed chunk by
chunk, so a line split across two chunk deliveries (`"ab"` then `"c"`)
comes out as two lines, not as the single line `"abc"` of the whole
stream. -/
theorem c4_counterexample :
    executeStdoutLines [['a', 'b'], ['c']] = [['a', 'b'], ['c']] ∧
    wholeStreamLines [['a', 'b'], ['c']] = [['a', 'b', 'c']] ∧
    executeStdoutLines [['a', 'b'], ['c']] ≠ wholeStreamLines [['a', 'b'], ['c']] := by
  refine ⟨by decide, by decide, by decide⟩

/-- C4 (amended): `execute` resolves with the concatenation, in delivery
order, of each chunk's nonempty newline-split lines; this equals the ordered
nonempty lines of the entire stream whenever every chunk boundary falls on a
line boundary (each chunk but the last empty or newline-terminated) — in
particular for single-chunk delivery, where a command producing 3 lines plus
a trailing blank line yields exactly those 3 nonempty lines in order. -/
theorem c4_execute_lines :
    (∀ (chunks : List (List Char)), (∀ b ∈ chunks.dropLast, nlTerminated b = true) →
      executeStdoutLines chunks = wholeStreamLines chunks) ∧
    executeStdoutLines ["one\ntwo\nthree\n\n".data] = ["one".data, "two".data, "three".data] ∧
    execute (SpawnBehavior.runs ["one\ntwo\nthree\n\n".data] 0) =
      ExecOutcome.resolved ["one".data, "two".data, "three".data] := by
  refine ⟨?_, by decide, ?_⟩
  · intro chunks
    induction chunks with
    | nil => intro _; rfl
    | cons b rest ih =>
        intro h
        cases rest with
        | nil =>
            simp [executeStdoutLines, wholeStreamLines, chunkLines]
        | cons r rs =>
            have hb : nlTerminated b = true := h b (by simp)
            have hrest : executeStdoutLines (r :: rs) = wholeStreamLines (r :: rs) := by
              apply ih
              intro x hx
              exact h x (by simpa using Or.inr hx)
            rw [nlTerminated, Bool.or_eq_true] at hb
            rcases hb with hb | hb
            · have : b = [] := by simpa using hb
              subst this
              simpa [executeStdoutLines, wholeStreamLines, chunkLines, splitNl]
                using hrest
            · obtain ⟨b0, rfl⟩ : ∃ b0, b = b0 ++ ['\n'] :=
                List.getLast?_eq_some_iff.mp (by simpa using hb)
              have hsplit : ∀ z, splitNl ((b0 ++ ['\n']) ++ z) = splitNl b0 ++ splitNl z := by
                intro z
                rw [List.append_assoc, List.singleton_append, splitNl_append_nl]
              have hA : chunkLines (b0 ++ ['\n']) =
                  List.filter (fun l => !l.isEmpty) (splitNl b0) := by
                have h0 := hsplit []
                rw [List.append_nil] at h0
                rw [chunkLines, h0]
                simp [splitNl]
              have hB : wholeStreamLines ((b0 ++ ['\n']) :: r :: rs) =
                  List.filter (fun l => !l.isEmpty) (splitNl b0) ++ wholeStreamLines (r :: rs) := by
                rw [wholeStreamLines, List.flatten_cons, hsplit, List.filter_append,
                  wholeStreamLines]
              rw [executeStdoutLines, List.flatMap_cons, hA, hB, ← hrest, executeStdoutLines]
  · rfl

/-- Witness for `c4_execute_lines` on a two-chunk delivery whose first chunk
is newline-terminated. -/
theorem c4_execute_lines_witness :
    (∀ b ∈ (["a\n".data, "bc".data] : List (List Char)).dropLast, nlTerminated b = true) ∧
    executeStdoutLines ["a\n".data, "bc".data] = wholeStreamLines ["a\n".data, "bc".data] :=
  ⟨by decide, c4_execute_lines.1 ["a\n".data, "bc".data] (by decide)⟩

/-! ## The interchange-format round trip

The chain below proves `jsonParse (jsonStringify v) = some v`: decimal
numerals invert, escaped string bodies invert, and the mutual parser
inverts the mutual serializer with any fuel at least `needJ v`. -/

/-- A digit character carries its value and is recognized as a digit. -/
theorem digitCh_spec (d : Nat) (h : d < 10) :
    digitVal (digitCh d) = d ∧ isDigitCh (digitCh d) = true := by
  interval_cases d <;> exact ⟨by decide, by decide⟩

/-- With fuel exceeding `n`, the numeral of `n` consists of digits, decodes
back to `n`, and is nonempty. -/
theorem natCharsAux_spec : ∀ (fuel n : Nat), n < fuel →
    (∀ c ∈ natCharsAux fuel n, isDigitCh c = true) ∧
    decodeDigits (natCharsAux fuel n) = n ∧ natCharsAux fuel n ≠ [] := by
  intro fuel
  induction fuel with
  | zero => intro n h; omega
  | succ fuel ih =>
      intro n h
      by_cases h10 : n < 10
      · refine ⟨?_, ?_, ?_⟩ <;> simp [natCharsAux, h10, decodeDigits, digitCh_spec n h10]
      · have hrec := ih (n / 10) (by omega)
        have hmod := digitCh_spec (n % 10) (by omega)
        refine ⟨?_, ?_, ?_⟩
        · intro c hc
          rw [natCharsAux, if_neg h10] at hc
          rcases List.mem_append.mp hc with hc | hc
          · exact hrec.1 c hc
          · rw [List.mem_singleton.mp hc]; exact hmod.2
        · rw [natCharsAux, if_neg h10, decodeDigits, List.foldl_append]
          rw [decodeDigits] at hrec
          rw [hrec.2.1]
          simp only [List.foldl_cons, List.foldl_nil, hmod.1]
          omega
        · rw [natCharsAux, if_neg h10]
          simp

/-- `natChars` facts at the canonical fuel. -/
theorem natChars_spec (n : Nat) :
    (∀ c ∈ natChars n, isDigitCh c = true) ∧
    decodeDigits (natChars n) = n ∧ natChars n ≠ [] :=
  natCharsAux_spec (n + 1) n (by omega)

/-- A digit run followed by a non-digit remainder splits back exactly. -/
theorem readDigits_append : ∀ (ds rest : List Char), (∀ c ∈ ds, isDigitCh c = true) →
    startsDigit rest = false → readDigits (ds ++ rest) = (ds, rest) := by
  intro ds
  induction ds with
  | nil =>
      intro rest _ hrest
      cases rest with
      | nil => rfl
      | cons c cs =>
          rw [startsDigit] at hrest
          simp [readDigits, hrest]
  | cons d ds ih =>
      intro rest hds hrest
      have hd : isDigitCh d = true := hds d (by simp)
      rw [List.cons_append, readDigits]
      simp only [hd, if_pos]
      rw [ih rest (fun c hc => hds c (by simp [hc])) hrest]

/-- `readNat` inverts `natChars` before a non-digit remainder. -/
theorem readNat_natChars (n : Nat) (rest : List Char) (hrest : startsDigit rest = false) :
    readNat (natChars n ++ rest) = some (n, rest) := by
  obtain ⟨hdig, hdec, hne⟩ := natChars_spec n
  rw [readNat, readDigits_append _ _ hdig hrest]
  cases h : natChars n with
  | nil => exact absurd h hne
  | cons c cs =>
      rw [h] at hdec
      simp [hdec]

/-- A digit character is not the minus sign. -/
theorem isDigitCh_ne_minus {c : Char} (h : isDigitCh c = true) : ¬(c = '-') := by
  intro hc
  rw [hc] at h
  exact absurd h (by decide)

/-- `readNum` inverts `intChars` before a non-digit remainder. -/
theorem readNum_intChars (i : Int) (rest : List Char) (hrest : startsDigit rest = false) :
    readNum (intChars i ++ rest) = some (i, rest) := by
  by_cases hneg : i < 0
  · rw [intChars, if_pos hneg, List.cons_append]
    simp only [readNum, reduceIte]
    rw [readNat_natChars _ _ hrest]
    have hval : -((i.natAbs : Nat) : Int) = i := by omega
    show some (-((i.natAbs : Nat) : Int), rest) = some (i, rest)
    rw [hval]
  · rw [intChars, if_neg hneg]
    obtain ⟨hdig, hdec, hne⟩ := natChars_spec i.natAbs
    have hval : ((i.natAbs : Nat) : Int) = i := by omega
    cases h : natChars i.natAbs with
    | nil => exact absurd h hne
    | cons c cs =>
        have hc : isDigitCh c = true := hdig c (by simp [h])
        rw [List.cons_append]
        simp only [readNum]
        rw [if_neg (isDigitCh_ne_minus hc)]
        have hrw : (c :: (cs ++ rest)) = natChars i.natAbs ++ rest := by
          rw [h, List.cons_append]
        rw [hrw, readNat_natChars _ _ hrest]
        simp [hval]

/-- A hexadecimal digit character carries its value. -/
theorem hexCh_spec (d : Nat) (h : d < 16) : hexVal (hexCh d) = some d := by
  interval_cases d <;> decide

/-- Reading one escaped character undoes its escaping. -/
theorem readQuoted_escapeCh (c : Char) (acc rest' : List Char) :
    readQuoted acc (escapeCh c ++ rest') = readQuoted (c :: acc) rest' := by
  by_cases h1 : c = '"'
  · subst h1
    rw [show escapeCh '"' = ['\\', '"'] from by decide, List.cons_append, List.cons_append,
      List.nil_append, readQuoted.eq_def]
    dsimp only
    simp [shortEscape]
  by_cases h2 : c = '\\'
  · subst h2
    rw [show escapeCh '\\' = ['\\', '\\'] from by decide, List.cons_append, List.cons_append,
      List.nil_append, readQuoted.eq_def]
    dsimp only
    simp [shortEscape]
  by_cases h3 : c.toNat < 32
  · by_cases hb : c = '\x08'
    · subst hb
      rw [show escapeCh '\x08' = ['\\', 'b'] from by decide, List.cons_append, List.cons_append,
        List.nil_append, readQuoted.eq_def]
      dsimp only
      simp [shortEscape]
    by_cases ht : c = '\x09'
    · subst ht
      rw [show escapeCh '\x09' = ['\\', 't'] from by decide, List.cons_append, List.cons_append,
        List.nil_append, readQuoted.eq_def]
      dsimp only
      simp [shortEscape]
    by_cases hn : c = '\x0a'
    · subst hn
      rw [show escapeCh '\x0a' = ['\\', 'n'] from by decide, List.cons_append, List.cons_append,
        List.nil_append, readQuoted.eq_def]
      dsimp only
      simp [shortEscape]
    by_cases hf : c = '\x0c'
    · subst hf
      rw [show escapeCh '\x0c' = ['\\', 'f'] from by decide, List.cons_append, List.cons_append,
        List.nil_append, readQuoted.eq_def]
      dsimp only
      simp [shortEscape]
    by_cases hr : c = '\x0d'
    · subst hr
      rw [show escapeCh '\x0d' = ['\\', 'r'] from by decide, List.cons_append, List.cons_append,
        List.nil_append, readQuoted.eq_def]
      dsimp only
      simp [shortEscape]
    rw [escapeCh, if_neg h1, if_neg h2, if_pos h3, if_neg hb, if_neg ht, if_neg hn,
      if_neg hf, if_neg hr]
    have hhi : hexVal (hexCh (c.toNat / 16)) = some (c.toNat / 16) := hexCh_spec _ (by omega)
    have hlo : hexVal (hexCh (c.toNat % 16)) = some (c.toNat % 16) := hexCh_spec _ (by omega)
    have h0 : hexVal '0' = some 0 := by decide
    have harith : c.toNat / 16 * 16 + c.toNat % 16 = c.toNat := by omega
    rw [List.cons_append, List.cons_append, List.cons_append, List.cons_append,
      List.cons_append, List.cons_append, List.nil_append]
    rw [readQuoted.eq_def]
    dsimp only
    simp [h0, hhi, hlo, harith, Char.ofNat_toNat]
  · rw [escapeCh, if_neg h1, if_neg h2, if_neg h3, List.singleton_append]
    rw [readQuoted.eq_def]
    dsimp only
    rw [if_neg h1, if_neg h2]

/-- Reading an escaped character run stops exactly at the closing quote. -/
theorem readQuoted_escList : ∀ (cs acc rest : List Char),
    readQuoted acc (cs.flatMap escapeCh ++ '"' :: rest) =
      some (⟨acc.reverse ++ cs⟩, rest) := by
  intro cs
  induction cs with
  | nil =>
      intro acc rest
      rw [List.flatMap_nil, List.nil_append, readQuoted.eq_def]
      dsimp only
      simp
  | cons c cs ih =>
      intro acc rest
      rw [List.flatMap_cons, List.append_assoc, readQuoted_escapeCh, ih (c :: acc) rest]
      congr 2
      simp

/-- The string-literal round trip: reading a serialized string body yields
the string back. -/
theorem readQuoted_quote (s : String) (rest : List Char) :
    readQuoted [] (s.data.flatMap escapeCh ++ '"' :: rest) = some (s, rest) := by
  cases s with
  | mk data =>
      rw [readQuoted_escList]
      simp

/-- A digit character is none of the structural delimiters. -/
theorem isDigitCh_ne_delim {c : Char} (h : isDigitCh c = true) :
    (c == ']') = false ∧ (c == '\x7d') = false := by
  constructor
  · cases hc : c == ']'
    · rfl
    · rw [beq_iff_eq] at hc; subst hc; exact absurd h (by decide)
  · cases hc : c == '\x7d'
    · rfl
    · rw [beq_iff_eq] at hc; subst hc; exact absurd h (by decide)

/-- The first character of an integer numeral: a minus sign or a digit. -/
theorem intChars_cons (i : Int) :
    ∃ c t, intChars i = c :: t ∧ (c = '-' ∨ isDigitCh c = true) := by
  by_cases hneg : i < 0
  · exact ⟨'-', natChars i.natAbs, by rw [intChars, if_pos hneg], Or.inl rfl⟩
  · obtain ⟨hdig, -, hne⟩ := natChars_spec i.natAbs
    cases h : natChars i.natAbs with
    | nil => exact absurd h hne
    | cons c t =>
        refine ⟨c, t, ?_, Or.inr (hdig c (by simp [h]))⟩
        rw [intChars, if_neg hneg, h]

/-- The first character a serialized value emits is never a closing
delimiter. -/
theorem jsonChars_cons (v : Json) :
    ∃ c t, jsonChars v = c :: t ∧ (c == ']') = false ∧ (c == '\x7d') = false := by
  cases v with
  | jnull => exact ⟨'n', _, rfl, by decide, by decide⟩
  | jbool b => cases b with
      | true => exact ⟨'t', _, rfl, by decide, by decide⟩
      | false => exact ⟨'f', _, rfl, by decide, by decide⟩
  | jnum i =>
      obtain ⟨c, t, hct, hc⟩ := intChars_cons i
      refine ⟨c, t, by rw [show jsonChars (Json.jnum i) = intChars i from rfl, hct], ?_⟩
      rcases hc with hc | hc
      · subst hc; exact ⟨by decide, by decide⟩
      · exact isDigitCh_ne_delim hc
  | jstr s => exact ⟨'"', _, rfl, by decide, by decide⟩
  | jarr items => exact ⟨'[', _, rfl, by decide, by decide⟩
  | jobj fields => exact ⟨'\x7b', _, rfl, by decide, by decide⟩

/-- The body of a nonempty serialized array starts with its first value's
first character. -/
theorem arrayBody_cons (v : Json) (vs : List Json) :
    ∃ c t, arrayBody (v :: vs) = c :: t ∧ (c == ']') = false ∧ (c == '\x7d') = false := by
  obtain ⟨c, t, hct, h1, h2⟩ := jsonChars_cons v
  cases vs with
  | nil => exact ⟨c, t, by rw [arrayBody, hct], h1, h2⟩
  | cons v' vs' =>
      refine ⟨c, t ++ ',' :: arrayBody (v' :: vs'), ?_, h1, h2⟩
      rw [show arrayBody (v :: v' :: vs') = jsonChars v ++ ',' :: arrayBody (v' :: vs')
        from rfl, hct, List.cons_append]

/-- The body of a nonempty serialized object starts with the opening quote
of its first key. -/
theorem objectBody_cons (kv : String × Json) (fvs : List (String × Json)) :
    ∃ t, objectBody (kv :: fvs) = '"' :: t := by
  obtain ⟨k, v⟩ := kv
  cases fvs with
  | nil =>
      exact ⟨k.data.flatMap escapeCh ++ ['"'] ++ ':' :: jsonChars v,
        by rw [show objectBody [(k, v)] = quoteChars k ++ ':' :: jsonChars v from rfl,
          quoteChars]; simp⟩
  | cons fv' fvs' =>
      exact ⟨k.data.flatMap escapeCh ++ ['"'] ++
          ':' :: (jsonChars v ++ ',' :: objectBody (fv' :: fvs')),
        by rw [show objectBody ((k, v) :: fv' :: fvs') =
          quoteChars k ++ ':' :: (jsonChars v ++ ',' :: objectBody (fv' :: fvs')) from rfl,
          quoteChars]; simp⟩

/-- A cons input starts with a digit exactly when its head is one. -/
theorem startsDigit_cons (c : Char) (x : List Char) :
    startsDigit (c :: x) = isDigitCh c := rfl

mutual

/-- With fuel at least `needJ v`, the parser reads a serialized `v` off the
front of the input, whenever the remainder cannot extend a numeral. -/
theorem parseJ_print : ∀ (v : Json) (fuel : Nat) (rest : List Char),
    needJ v ≤ fuel → startsDigit rest = false →
    parseJ fuel (jsonChars v ++ rest) = some (v, rest)
  | .jnull, fuel, rest, hfuel, _ => by
      obtain ⟨f, rfl⟩ : ∃ f, fuel = f + 1 :=
        ⟨fuel - 1, by have h1 : needJ Json.jnull = 1 := rfl; omega⟩
      rw [show jsonChars Json.jnull ++ rest = 'n' :: 'u' :: 'l' :: 'l' :: rest from rfl]
      rw [parseJ]
      simp [dropLit, isDigitCh]
  | .jbool true, fuel, rest, hfuel, _ => by
      obtain ⟨f, rfl⟩ : ∃ f, fuel = f + 1 :=
        ⟨fuel - 1, by have h1 : needJ (Json.jbool true) = 1 := rfl; omega⟩
      rw [show jsonChars (Json.jbool true) ++ rest = 't' :: 'r' :: 'u' :: 'e' :: rest from rfl]
      rw [parseJ]
      simp [dropLit, isDigitCh]
  | .jbool false, fuel, rest, hfuel, _ => by
      obtain ⟨f, rfl⟩ : ∃ f, fuel = f + 1 :=
        ⟨fuel - 1, by have h1 : needJ (Json.jbool false) = 1 := rfl; omega⟩
      rw [show jsonChars (Json.jbool false) ++ rest =
        'f' :: 'a' :: 'l' :: 's' :: 'e' :: rest from rfl]
      rw [parseJ]
      simp [dropLit, isDigitCh]
  | .jnum i, fuel, rest, hfuel, hrest => by
      obtain ⟨f, rfl⟩ : ∃ f, fuel = f + 1 :=
        ⟨fuel - 1, by have h1 : needJ (Json.jnum i) = 1 := rfl; omega⟩
      obtain ⟨c, t, hct, hc⟩ := intChars_cons i
      rw [show jsonChars (Json.jnum i) = intChars i from rfl, hct, List.cons_append]
      rw [parseJ]
      have hcond : (decide (c = '-') || isDigitCh c) = true := by
        rcases hc with h | h
        · subst h; simp
        · simp [h]
      rw [if_pos hcond]
      have hback : c :: (t ++ rest) = intChars i ++ rest := by rw [hct, List.cons_append]
      rw [hback, readNum_intChars i rest hrest]
      rfl
  | .jstr s, fuel, rest, hfuel, _ => by
      obtain ⟨f, rfl⟩ : ∃ f, fuel = f + 1 :=
        ⟨fuel - 1, by have h1 : needJ (Json.jstr s) = 1 := rfl; omega⟩
      have hnorm : jsonChars (Json.jstr s) ++ rest =
          '"' :: (s.data.flatMap escapeCh ++ '"' :: rest) := by
        rw [show jsonChars (Json.jstr s) = quoteChars s from rfl, quoteChars]
        simp
      rw [hnorm, parseJ]
      rw [if_neg (by decide), if_neg (by decide), if_neg (by decide), if_neg (by decide),
        if_pos rfl]
      rw [readQuoted_quote s rest]
      rfl
  | .jarr [], fuel, rest, hfuel, _ => by
      obtain ⟨f, rfl⟩ : ∃ f, fuel = f + 1 :=
        ⟨fuel - 1, by have h1 : needJ (Json.jarr []) = 1 := rfl; omega⟩
      rw [show jsonChars (Json.jarr []) ++ rest = '[' :: ']' :: rest from rfl]
      rw [parseJ]
      simp [isCh, isDigitCh]
  | .jarr (v :: vs), fuel, rest, hfuel, _ => by
      rw [needJ] at hfuel
      obtain ⟨f, rfl⟩ : ∃ f, fuel = f + 1 := ⟨fuel - 1, by omega⟩
      have hpi : parseItems f (arrayBody (v :: vs) ++ ']' :: rest) = some (v :: vs, rest) :=
        parseItems_print (v :: vs) f rest (by simp) (by omega)
      have hnorm : jsonChars (Json.jarr (v :: vs)) ++ rest =
          '[' :: (arrayBody (v :: vs) ++ ']' :: rest) := by
        rw [show jsonChars (Json.jarr (v :: vs)) =
          '[' :: (arrayBody (v :: vs) ++ [']']) from rfl]
        simp
      rw [hnorm, parseJ]
      rw [if_neg (by decide), if_neg (by decide), if_neg (by decide), if_neg (by decide),
        if_neg (by decide), if_pos rfl]
      obtain ⟨c, t, hct, h1, h2⟩ := arrayBody_cons v vs
      have hch : isCh (arrayBody (v :: vs) ++ ']' :: rest) ']' = false := by
        rw [hct, List.cons_append, isCh, h1]
      rw [if_neg (by rw [hch]; exact Bool.false_ne_true), hpi]
      rfl
  | .jobj [], fuel, rest, hfuel, _ => by
      obtain ⟨f, rfl⟩ : ∃ f, fuel = f + 1 :=
        ⟨fuel - 1, by have h1 : needJ (Json.jobj []) = 1 := rfl; omega⟩
      rw [show jsonChars (Json.jobj []) ++ rest = '\x7b' :: '\x7d' :: rest from rfl]
      rw [parseJ]
      simp [isCh, isDigitCh]
  | .jobj (fv :: fvs), fuel, rest, hfuel, _ => by
      rw [needJ] at hfuel
      obtain ⟨f, rfl⟩ : ∃ f, fuel = f + 1 := ⟨fuel - 1, by omega⟩
      have hpf : parseFields f (objectBody (fv :: fvs) ++ '\x7d' :: rest) =
          some (fv :: fvs, rest) :=
        parseFields_print (fv :: fvs) f rest (by simp) (by omega)
      have hnorm : jsonChars (Json.jobj (fv :: fvs)) ++ rest =
          '\x7b' :: (objectBody (fv :: fvs) ++ '\x7d' :: rest) := by
        rw [show jsonChars (Json.jobj (fv :: fvs)) =
          '\x7b' :: (objectBody (fv :: fvs) ++ ['\x7d']) from rfl]
        simp
      rw [hnorm, parseJ]
      rw [if_neg (by decide), if_neg (by decide), if_neg (by decide), if_neg (by decide),
        if_neg (by decide), if_neg (by decide), if_pos rfl]
      obtain ⟨t, ht⟩ := objectBody_cons fv fvs
      have hch : isCh (objectBody (fv :: fvs) ++ '\x7d' :: rest) '\x7d' = false := by
        rw [ht, List.cons_append, isCh]
        decide
      rw [if_neg (by rw [hch]; exact Bool.false_ne_true), hpf]
      rfl

/-- With fuel at least `needItems items`, the element parser reads the
serialized nonempty element list up to the closing bracket. -/
theorem parseItems_print : ∀ (items : List Json) (fuel : Nat) (rest : List Char),
    items ≠ [] → needItems items ≤ fuel →
    parseItems fuel (arrayBody items ++ ']' :: rest) = some (items, rest)
  | [], _, _, hne, _ => absurd rfl hne
  | [v], fuel, rest, _, hfuel => by
      rw [needItems, needItems] at hfuel
      obtain ⟨f, rfl⟩ : ∃ f, fuel = f + 1 := ⟨fuel - 1, by omega⟩
      have hpv : parseJ f (jsonChars v ++ ']' :: rest) = some (v, ']' :: rest) :=
        parseJ_print v f (']' :: rest) (by omega) (by rw [startsDigit_cons]; decide)
      rw [show arrayBody [v] = jsonChars v from rfl, parseItems, hpv]
      simp
  | v :: v' :: vs, fuel, rest, _, hfuel => by
      rw [needItems] at hfuel
      obtain ⟨f, rfl⟩ : ∃ f, fuel = f + 1 := ⟨fuel - 1, by omega⟩
      have hpv : parseJ f (jsonChars v ++ ',' :: (arrayBody (v' :: vs) ++ ']' :: rest)) =
          some (v, ',' :: (arrayBody (v' :: vs) ++ ']' :: rest)) :=
        parseJ_print v f _ (by omega) (by rw [startsDigit_cons]; decide)
      have hpi : parseItems f (arrayBody (v' :: vs) ++ ']' :: rest) = some (v' :: vs, rest) :=
        parseItems_print (v' :: vs) f rest (by simp) (by omega)
      have hnorm : arrayBody (v :: v' :: vs) ++ ']' :: rest =
          jsonChars v ++ ',' :: (arrayBody (v' :: vs) ++ ']' :: rest) := by
        rw [show arrayBody (v :: v' :: vs) =
          jsonChars v ++ ',' :: arrayBody (v' :: vs) from rfl]
        simp
      rw [hnorm, parseItems, hpv]
      simp [hpi]

/-- With fuel at least `needFields fields`, the member parser reads the
serialized nonempty member list up to the closing brace. -/
theorem parseFields_print : ∀ (fields : List (String × Json)) (fuel : Nat) (rest : List Char),
    fields ≠ [] → needFields fields ≤ fuel →
    parseFields fuel (objectBody fields ++ '\x7d' :: rest) = some (fields, rest)
  | [], _, _, hne, _ => absurd rfl hne
  | [(k, v)], fuel, rest, _, hfuel => by
      rw [needFields, needFields] at hfuel
      obtain ⟨f, rfl⟩ : ∃ f, fuel = f + 1 := ⟨fuel - 1, by omega⟩
      have hpv : parseJ f (jsonChars v ++ '\x7d' :: rest) = some (v, '\x7d' :: rest) :=
        parseJ_print v f ('\x7d' :: rest) (by omega) (by rw [startsDigit_cons]; decide)
      have hnorm : objectBody [(k, v)] ++ '\x7d' :: rest =
          '"' :: (k.data.flatMap escapeCh ++ '"' ::
            (':' :: (jsonChars v ++ '\x7d' :: rest))) := by
        rw [show objectBody [(k, v)] = quoteChars k ++ ':' :: jsonChars v from rfl, quoteChars]
        simp
      rw [hnorm, parseFields]
      rw [readQuoted_quote k (':' :: (jsonChars v ++ '\x7d' :: rest))]
      simp [hpv]
  | (k, v) :: fv :: fvs, fuel, rest, _, hfuel => by
      rw [needFields] at hfuel
      obtain ⟨f, rfl⟩ : ∃ f, fuel = f + 1 := ⟨fuel - 1, by omega⟩
      have hpv : parseJ f (jsonChars v ++ ',' :: (objectBody (fv :: fvs) ++ '\x7d' :: rest)) =
          some (v, ',' :: (objectBody (fv :: fvs) ++ '\x7d' :: rest)) :=
        parseJ_print v f _ (by omega) (by rw [startsDigit_cons]; decide)
      have hpf : parseFields f (objectBody (fv :: fvs) ++ '\x7d' :: rest) =
          some (fv :: fvs, rest) :=
        parseFields_print (fv :: fvs) f rest (by simp) (by omega)
      have hnorm : objectBody ((k, v) :: fv :: fvs) ++ '\x7d' :: rest =
          '"' :: (k.data.flatMap escapeCh ++ '"' ::
            (':' :: (jsonChars v ++ ',' :: (objectBody (fv :: fvs) ++ '\x7d' :: rest)))) := by
        rw [show objectBody ((k, v) :: fv :: fvs) =
          quoteChars k ++ ':' :: (jsonChars v ++ ',' :: objectBody (fv :: fvs)) from rfl,
          quoteChars]
        simp
      rw [hnorm, parseFields]
      rw [readQuoted_quote k
        (':' :: (jsonChars v ++ ',' :: (objectBody (fv :: fvs) ++ '\x7d' :: rest)))]
      simp [hpv, hpf]

end

mutual

/-- A value's fuel requirement is bounded by its serialized length. -/
theorem needJ_le : ∀ (v : Json), needJ v ≤ (jsonChars v).length
  | .jnull => by
      have h1 : needJ Json.jnull = 1 := rfl
      simp [h1, jsonChars]
  | .jbool true => by
      have h1 : needJ (Json.jbool true) = 1 := rfl
      simp [h1, jsonChars]
  | .jbool false => by
      have h1 : needJ (Json.jbool false) = 1 := rfl
      simp [h1, jsonChars]
  | .jnum i => by
      have h1 : needJ (Json.jnum i) = 1 := rfl
      obtain ⟨c, t, hct, -⟩ := intChars_cons i
      rw [h1, show jsonChars (Json.jnum i) = intChars i from rfl, hct]
      simp
  | .jstr s => by
      have h1 : needJ (Json.jstr s) = 1 := rfl
      rw [h1, show jsonChars (Json.jstr s) = quoteChars s from rfl, quoteChars]
      simp
  | .jarr items => by
      have h1 : needJ (Json.jarr items) = 1 + needItems items := rfl
      have h2 := needItems_le items
      rw [h1, show jsonChars (Json.jarr items) = '[' :: (arrayBody items ++ [']']) from rfl]
      simp only [List.length_cons, List.length_append, List.length_singleton]
      omega
  | .jobj fields => by
      have h1 : needJ (Json.jobj fields) = 1 + needFields fields := rfl
      have h2 := needFields_le fields
      rw [h1, show jsonChars (Json.jobj fields) =
        '\x7b' :: (objectBody fields ++ ['\x7d']) from rfl]
      simp only [List.length_cons, List.length_append, List.length_singleton]
      omega

/-- An element list's fuel requirement is bounded by its serialized length
plus one. -/
theorem needItems_le : ∀ (items : List Json), needItems items ≤ (arrayBody items).length + 1
  | [] => by
      have h1 : needItems [] = 0 := rfl
      omega
  | [v] => by
      have h1 : needItems [v] = 1 + needJ v + 0 := rfl
      have h2 := needJ_le v
      rw [h1, show arrayBody [v] = jsonChars v from rfl]
      omega
  | v :: v' :: vs => by
      have h1 : needItems (v :: v' :: vs) = 1 + needJ v + needItems (v' :: vs) := rfl
      have h2 := needJ_le v
      have h3 := needItems_le (v' :: vs)
      rw [h1, show arrayBody (v :: v' :: vs) =
        jsonChars v ++ ',' :: arrayBody (v' :: vs) from rfl]
      simp only [List.length_append, List.length_cons]
      omega

/-- A member list's fuel requirement is bounded by its serialized length
plus one. -/
theorem needFields_le : ∀ (fields : List (String × Json)),
    needFields fields ≤ (objectBody fields).length + 1
  | [] => by
      have h1 : needFields [] = 0 := rfl
      omega
  | [(k, v)] => by
      have h1 : needFields [(k, v)] = 1 + needJ v + 0 := rfl
      have h2 := needJ_le v
      rw [h1, show objectBody [(k, v)] = quoteChars k ++ ':' :: jsonChars v from rfl]
      simp only [List.length_append, List.length_cons]
      omega
  | (k, v) :: fv :: fvs => by
      have h1 : needFields ((k, v) :: fv :: fvs) = 1 + needJ v + needFields (fv :: fvs) := rfl
      have h2 := needJ_le v
      have h3 := needFields_le (fv :: fvs)
      rw [h1, show objectBody ((k, v) :: fv :: fvs) =
        quoteChars k ++ ':' :: (jsonChars v ++ ',' :: objectBody (fv :: fvs)) from rfl]
      simp only [List.length_append, List.length_cons]
      omega

end

/-- The codec round trip: parsing a serialized value yields it back. -/
theorem jsonParse_stringify (v : Json) : jsonParse (jsonStringify v) = some v := by
  rw [jsonParse]
  have hdata : (jsonStringify v).data = jsonChars v := rfl
  rw [hdata]
  have h := parseJ_print v ((jsonChars v).length + 1) []
    (by have := needJ_le v; omega) rfl
  rw [List.append_nil] at h
  rw [h]

/-- Looking up a just-written file yields the written content. -/
theorem lookupFile_putFile (fs : FileSystemState) (p x : String) :
    lookupFile (putFile fs p x) p = some x := by
  simp [lookupFile, putFile, List.lookup]

/-- C2: writing a representable value with `writeJSONFile` and reading the
resulting file back with `readJSONFile` yields a value deep-equal to the one
written. -/
theorem c2_json_roundtrip :
    ∀ (fs fs' : FileSystemState) (p : String) (v : Json), wfKeys v = true →
      writeJSONFile fs p v = Except.ok fs' → readJSONFile fs' p = Except.ok v := by
  intro fs fs' p v _ hw
  rw [writeJSONFile, writeFile, fsWriteFile] at hw
  by_cases hd : hasDir fs p
  · rw [if_pos hd] at hw
    exact absurd hw (by simp)
  · rw [if_neg hd] at hw
    have hfs' : fs' = putFile fs p (jsonStringify v) := by
      cases hw
      rfl
    subst hfs'
    rw [readJSONFile, readFile, fsReadFile, lookupFile_putFile]
    dsimp only
    rw [jsonParse_stringify]

/-- Witness for `c2_json_roundtrip` at a value exercising every constructor
of the format. -/
theorem c2_json_roundtrip_witness :
    wfKeys demoJson = true ∧
    writeJSONFile ⟨[], []⟩ "d.json" demoJson =
      Except.ok (putFile ⟨[], []⟩ "d.json" (jsonStringify demoJson)) ∧
    readJSONFile (putFile ⟨[], []⟩ "d.json" (jsonStringify demoJson)) "d.json" =
      Except.ok demoJson :=
  ⟨rfl, rfl, c2_json_roundtrip ⟨[], []⟩ _ "d.json" demoJson rfl rfl⟩

/-- Witness for `c10_mkdir_precheck` on a state where `"a"` is a regular
file. -/
theorem c10_mkdir_precheck_witness :
    pathPresent ⟨[("a", "x")], []⟩ "a" = true ∧
    lookupFile ⟨[("a", "x")], []⟩ "a" = some "x" ∧
    mkdirSync ⟨[("a", "x")], []⟩ "a" = Except.ok ⟨[("a", "x")], []⟩ ∧
    mkdir ⟨[("a", "x")], []⟩ "a" = Except.error SysError.eexist :=
  ⟨rfl, rfl, c10_mkdir_precheck.1 ⟨[("a", "x")], []⟩ "a" rfl,
    c10_mkdir_precheck.2 ⟨[("a", "x")], []⟩ "a" "x" rfl⟩

end FSH
